import Mathlib

/-!
Shallow embedding of the halbacharray-GA island-model genetic optimizer:
the fitness evaluator (`field_calculations.py`), the duplicate tracker,
migration policy and island coordinator (`Genetic_Functions.py`), and the
genome codec / variation operators registered in `GA_main.py`.

Numeric values are modelled over `ℚ` (the Python code computes with
floats; all claims here are about the exact arithmetic the formulas
denote).  Python / numpy runtime errors (IndexError on an out-of-bounds
table access) are modelled by `Option`: `none` is a raised exception.
-/

namespace HalbachGA

/-! ### Configuration constants (`config.py`) -/

namespace config

/-- `T_target = 0.08` (target field strength in Tesla). -/
def T_target : ℚ := 8 / 100

/-- `homogeneity_weight = 0.8`. -/
def homogeneity_weight : ℚ := 8 / 10

/-- `field_strength_weight = 0.2`. -/
def field_strength_weight : ℚ := 2 / 10

end config

/-! ### The Field Lookup Table

`shared_data` is a 3-D numpy array of shape
(sample_count × position_count × config_count).  We model it by its three
dimensions and an entry function (entries outside the declared bounds are
never consulted by the embedded code). -/

structure FieldTable where
  sampleCount : Nat
  posCount : Nat
  cfgCount : Nat
  entry : Nat → Nat → Nat → ℚ

/-- `np.max` of a 1-D array, as used on the nonempty `field` vector. -/
def npMax (l : List ℚ) : ℚ := l.foldl max (l.headD 0)

/-- `np.min` of a 1-D array. -/
def npMin (l : List ℚ) : ℚ := l.foldl min (l.headD 0)

/-- `np.mean` of a 1-D array: sum divided by length. -/
def npMean (l : List ℚ) : ℚ := l.sum / (l.length : ℚ)

/-- Numpy integer indexing on an axis of size `n`: an index `v` is valid
iff `-n ≤ v < n`; a negative index wraps to `n + v`.  `none` models the
IndexError numpy raises otherwise. -/
def npIndex (n : Nat) (v : Int) : Option Nat :=
  if 0 ≤ v ∧ v < (n : Int) then some v.toNat
  else if -(n : Int) ≤ v ∧ v < 0 then some (v + (n : Int)).toNat
  else none

/-- The accumulation loop of `fieldError`:
`for idx1 in range(np.size(shimVector)): field += shared_data[:, idx1, shimVector[idx1]]`.
The running `field` vector is represented as a function from sample index
to value; `i` is the current position index `idx1`.  A `none` result is
the IndexError numpy raises when `idx1` exceeds the table's second
dimension or the gene is out of range of the third. -/
def fieldSumsGo (t : FieldTable) : Nat → List Int → (Nat → ℚ) → Option (Nat → ℚ)
  | _, [], acc => some acc
  | i, v :: rest, acc =>
    if i < t.posCount then
      match npIndex t.cfgCount v with
      | some j => fieldSumsGo t (i + 1) rest (fun s => acc s + t.entry s i j)
      | none => none
    else none

/-- The per-sample `field` vector computed by `fieldError`, starting from
`np.zeros(np.size(shared_data, 0))`. -/
def fieldVec (t : FieldTable) (shimVector : List Int) : Option (List ℚ) :=
  (fieldSumsGo t 0 shimVector (fun _ => 0)).map
    (fun f => (List.range t.sampleCount).map f)

/-- `fieldError` (`field_calculations.py`, lines 9–39): weighted sum of the
homogeneity error `((max-min)/mean) * 1e6` and the field-strength error
`|mean - T_target| * 1e6`. -/
def fieldError (t : FieldTable) (shimVector : List Int) : Option ℚ :=
  (fieldVec t shimVector).map (fun field =>
    let homogeneity_error := ((npMax field - npMin field) / npMean field) * 1000000
    let mean_field_strength := npMean field
    let field_strength_error := |mean_field_strength - config.T_target| * 1000000
    config.homogeneity_weight * homogeneity_error
      + config.field_strength_weight * field_strength_error)

/-- The mean of the field vector: the denominator of the homogeneity
ratio in `fieldError` (line 30). -/
def fieldMean (t : FieldTable) (shimVector : List Int) : Option ℚ :=
  (fieldVec t shimVector).map npMean

/-! ### The Duplicate Tracker (`Genetic_Functions.py`, `count_duplicates`) -/

structure DupStats where
  total_population : Nat
  unique_individuals : Nat
  duplicate_count : Nat
  duplicate_percentage : ℚ
  deriving DecidableEq, Repr

/-- The multiset of values of `Counter(tuple_population)`: one count per
distinct gene sequence. -/
def counterValues (population : List (List Int)) : List Nat :=
  population.dedup.map (fun v => @List.count (List Int) instBEqOfDecidableEq v population)

/-- `count_duplicates` (`Genetic_Functions.py`, lines 7–28).
`duplicates = sum(count - 1 for count in counts.values() if count > 1)`;
`duplicate_percentage = (duplicates / total_population) * 100` (an
unguarded division: Python raises ZeroDivisionError when the population
is empty; over `ℚ` the division then has denominator 0). -/
def count_duplicates (population : List (List Int)) : DupStats :=
  let counts := counterValues population
  let duplicates := (((counts.filter (fun c => decide (1 < c))).map (fun c => c - 1)).sum)
  let unique_individuals := counts.length
  let total_population := population.length
  { total_population := total_population
    unique_individuals := unique_individuals
    duplicate_count := duplicates
    duplicate_percentage := ((duplicates : ℚ) / (total_population : ℚ)) * 100 }

/-! ### Individuals, selection, migration (`Genetic_Functions.py`)

A DEAP individual is a list subclass (the genome) carrying a fitness
attribute; the GA uses a single minimized objective (weights `(-1.0,)`),
so `tools.selBest` returns the individuals of lowest raw error and
`tools.selWorst` those of highest raw error (both stably, Python's sort
being stable).  Python's `list.remove` compares by list contents, i.e. by
genome, ignoring the fitness attribute. -/

structure Individual where
  genome : List Int
  fitness : ℚ
  deriving DecidableEq, Repr

/-- Ascending error: the order `tools.selBest` sorts by (a stable sort,
like Python's). -/
def fitLE : Individual → Individual → Prop := fun a b => a.fitness ≤ b.fitness

instance : DecidableRel fitLE := fun a b => inferInstanceAs (Decidable (a.fitness ≤ b.fitness))

instance : IsTotal Individual fitLE := ⟨fun a b => le_total a.fitness b.fitness⟩

instance : IsTrans Individual fitLE := ⟨fun _ _ _ hab hbc => le_trans hab hbc⟩

/-- Descending error: the order `tools.selWorst` sorts by. -/
def fitGE : Individual → Individual → Prop := fun a b => b.fitness ≤ a.fitness

instance : DecidableRel fitGE := fun a b => inferInstanceAs (Decidable (b.fitness ≤ a.fitness))

instance : IsTotal Individual fitGE := ⟨fun a b => le_total b.fitness a.fitness⟩

instance : IsTrans Individual fitGE := ⟨fun _ _ _ hab hbc => le_trans hbc hab⟩

/-- `tools.selBest(pop, k)`: the `k` individuals of lowest error (stable
sort, ties kept in original order). -/
def selBest (pop : List Individual) (k : Nat) : List Individual :=
  (List.insertionSort fitLE pop).take k

/-- `tools.selWorst(pop, k)`: the `k` individuals of highest error. -/
def selWorst (pop : List Individual) (k : Nat) : List Individual :=
  (List.insertionSort fitGE pop).take k

/-- Python `list.remove(v)` on a list of individuals: deletes the first
element whose genome equals `v`'s genome. -/
def removeFirstGenome (l : List Individual) (v : Individual) : List Individual :=
  match l with
  | [] => []
  | x :: xs => if x.genome = v.genome then xs else x :: removeFirstGenome xs v

/-- The inner loop of `migrate_island`:
`for j in range(num_migrate): target.remove(immigrants[j]); target.append(migrants[j])`.
`pairs` zips the migrants with the immigrants (both have `num_migrate`
elements whenever the islands are at least that large, which Python
requires on pain of IndexError). -/
def applyMigration (tgt : List Individual) (pairs : List (Individual × Individual)) : List Individual :=
  pairs.foldl (fun acc p => removeFirstGenome acc p.2 ++ [p.1]) tgt

/-- `num_migrate = int(migration_rate * len(populations[0]))` (line 32). -/
def num_migrate (migration_rate : ℚ) (populations : List (List Individual)) : Nat :=
  (⌊migration_rate * (((populations.headD []).length : ℚ))⌋).toNat

/-- One iteration of the migration loop (`i` fixed): select the current
source's best and the current target's worst and exchange them in place.
The source and target are read from the *current* state `ps`, which
earlier iterations of the same round have already updated. -/
def migrateStep (k : Nat) (ps : List (List Individual)) (i : Nat) : List (List Individual) :=
  let src := ps.getD i []
  let tgtIdx := (i + 1) % ps.length
  let tgt := ps.getD tgtIdx []
  let migrants := selBest src k
  let immigrants := selWorst tgt k
  ps.set tgtIdx (applyMigration tgt (migrants.zip immigrants))

/-- `migrate_island` (`Genetic_Functions.py`, lines 30–44), default
`migration_rate = 0.3`. -/
def migrate_island (populations : List (List Individual)) (migration_rate : ℚ) : List (List Individual) :=
  (List.range populations.length).foldl
    (migrateStep (num_migrate migration_rate populations)) populations

/-! ### The island coordinator (`Genetic_Functions.py`, `island_model`)

The per-round, per-island evolution (`evolve_island`, dispatching DEAP's
`eaSimple` / `eaMuPlusLambda` / `eaMuCommaLambda`, external library code
driven by per-worker RNG streams) is abstracted as a function
`evolve round island population`: one realization of the stochastic
evolution.  `eaSimple` performs full generational replacement without
elitism, so a realization that loses the best individual of a population
is possible; the per-island `HallOfFame` created inside `evolve_island`
is not returned by `evolve_island_wrapper` and is discarded. -/

/-- `populations = [toolbox.population(n=popSim // num_islands) for _ in range(num_islands)]`
(line 140).  `mkPop island size` abstracts `toolbox.population(n=size)`,
which returns a list of exactly `size` fresh individuals. -/
def initialPartition (mkPop : Nat → Nat → List Individual) (popSim num_islands : Nat) :
    List (List Individual) :=
  (List.range num_islands).map (fun k => mkPop k (popSim / num_islands))

/-- The state after `r` rounds of the coordinator loop body: evolve every
island, then migrate with the default rate. -/
def islandRounds (evolve : Nat → Nat → List Individual → List Individual)
    (pops : List (List Individual)) : Nat → List (List Individual)
  | 0 => pops
  | r + 1 =>
    migrate_island ((islandRounds evolve pops r).mapIdx (fun i p => evolve r i p)) (3 / 10)

/-- Python `range(start, stop, step)` for a positive step. -/
def rangeStep (start stop step : Nat) : List Nat :=
  if _h : start < stop ∧ 0 < step then start :: rangeStep (start + step) stop step else []
termination_by stop - start
decreasing_by simp_wf; omega

/-- The number of iterations of
`for gen in range(0, num_generations, migration_interval)` (line 145). -/
def numRounds (num_generations migration_interval : Nat) : Nat :=
  (rangeStep 0 num_generations migration_interval).length

/-- The generation counts dispatched to each island, round by round: the
loop body always passes `migration_interval` as the number of
generations (line 147), in every round including the last. -/
def roundGenerations (num_generations migration_interval : Nat) : List Nat :=
  (rangeStep 0 num_generations migration_interval).map (fun _ => migration_interval)

/-- Python `min(..., key=fitness.values)`: first individual of minimal
fitness. -/
def minByFitness (l : List Individual) : Option Individual :=
  l.foldl (fun acc x =>
    match acc with
    | none => some x
    | some b => if x.fitness < b.fitness then some x else some b) none

/-- `tools.selBest(pop, 1)[0]` (raises on an empty population, which the
claims exclude). -/
def selBestOne (p : List Individual) : Option Individual := (selBest p 1).head?

/-- `island_model` (lines 117–166): run the rounds, then compute the
hall-of-fame individual as the best of the per-island bests **of the
final populations only** (lines 161–164). -/
def island_model (evolve : Nat → Nat → List Individual → List Individual)
    (num_generations migration_interval : Nat) (pops : List (List Individual)) :
    List (List Individual) × Option Individual :=
  let final := islandRounds evolve pops (numRounds num_generations migration_interval)
  (final, minByFitness (final.filterMap selBestOne))

/-! ### Genome codec and variation operators (`GA_main.py` + DEAP)

Randomness is embedded by streams of abstract draws; `randint` forces a
draw into the inclusive range `[a, b]`, which is exactly the contract of
`random.randint`. -/

/-- `random.randint(a, b)`: a uniform draw from `[a, b]` inclusive;
`s` abstracts the RNG state. -/
def randint (a b : Nat) (s : Nat) : Nat := a + s % (b - a + 1)

/-- `generate_indices` (`GA_main.py`, lines 22–23):
`random.randint(0, num_rings_perm - 1)`. -/
def generate_indices (num_rings_perm : Nat) (s : Nat) : Nat :=
  randint 0 (num_rings_perm - 1) s

/-- `create_individual` (`GA_main.py`, lines 25–26): a genome of
`num_positions` independently drawn genes. -/
def create_individual (num_positions num_rings_perm : Nat) (stream : Nat → Nat) : List Int :=
  (List.range num_positions).map (fun i => (generate_indices num_rings_perm (stream i) : Int))

/-- DEAP `tools.cxTwoPoint` (registered as `mate`): draws
`cxpoint1 = randint(1, size)` and `cxpoint2 = randint(1, size - 1)` with
`size = min(len(ind1), len(ind2))`; if `cxpoint2 >= cxpoint1` then
`cxpoint2 += 1`, else the two are swapped; finally the slices
`ind1[cxpoint1:cxpoint2]` and `ind2[cxpoint1:cxpoint2]` are exchanged. -/
def cxTwoPoint (ind1 ind2 : List Int) (s1 s2 : Nat) : List Int × List Int :=
  let size := min ind1.length ind2.length
  let c1 := randint 1 size s1
  let c2' := randint 1 (size - 1) s2
  let cuts := if c1 ≤ c2' then (c1, c2' + 1) else (c2', c1)
  (ind1.take cuts.1 ++ (ind2.drop cuts.1).take (cuts.2 - cuts.1) ++ ind1.drop cuts.2,
   ind2.take cuts.1 ++ (ind1.drop cuts.1).take (cuts.2 - cuts.1) ++ ind2.drop cuts.2)

/-- DEAP `tools.mutUniformInt` with scalar bounds (registered as `mutate`
with `low=0, up=num_rings_perm - 1, indpb=0.2`): each gene is replaced by
`randint(low, up)` when its independent coin `flip i` comes up. -/
def mutUniformInt (low up : Nat) (individual : List Int) (flip : Nat → Bool) (vals : Nat → Nat) :
    List Int :=
  individual.mapIdx (fun i g => if flip i then (randint low up (vals i) : Int) else g)

/-! ## Supporting lemmas -/

/-- A list of positive naturals is at least as long as its sum is large. -/
theorem length_le_sum_of_one_le (cs : List Nat) (h : ∀ c ∈ cs, 1 ≤ c) :
    cs.length ≤ cs.sum := by
  induction cs with
  | nil => simp
  | cons c rest ih =>
    have hc := h c (List.mem_cons_self c rest)
    have hr := ih (fun x hx => h x (List.mem_cons_of_mem c hx))
    simp only [List.length_cons, List.sum_cons]
    omega

/-- Summing `count - 1` over the counts exceeding 1 equals `sum - length`
when every count is positive (counts of value 1 contribute 0 anyway). -/
theorem sum_pred_filter_eq (cs : List Nat) (h : ∀ c ∈ cs, 1 ≤ c) :
    (((cs.filter (fun c => decide (1 < c))).map (fun c => c - 1)).sum) = cs.sum - cs.length := by
  induction cs with
  | nil => simp
  | cons c rest ih =>
    have hc := h c (List.mem_cons_self c rest)
    have hr : ∀ x ∈ rest, 1 ≤ x := fun x hx => h x (List.mem_cons_of_mem c hx)
    have hlen := length_le_sum_of_one_le rest hr
    by_cases h1 : 1 < c
    · have hd : (decide (1 < c)) = true := by simpa using h1
      simp only [List.filter_cons, hd, if_true, List.map_cons, List.sum_cons,
        List.length_cons, ih hr]
      omega
    · have hd : (decide (1 < c)) = false := by simpa using h1
      simp only [List.filter_cons, hd, if_false, List.sum_cons, List.length_cons, ih hr,
        Bool.false_eq_true]
      omega

/-- Every value of the duplicate tracker's counter is positive. -/
theorem counterValues_one_le (population : List (List Int)) :
    ∀ c ∈ counterValues population, 1 ≤ c := by
  intro c hc
  simp only [counterValues, List.mem_map] at hc
  obtain ⟨v, hv, rfl⟩ := hc
  have : v ∈ population := List.mem_dedup.mp hv
  exact (@List.count_pos_iff (List Int) instBEqOfDecidableEq _ _ _).mpr this

/-- The counter's values sum to the population size. -/
theorem counterValues_sum (population : List (List Int)) :
    (counterValues population).sum = population.length := by
  simp only [counterValues]
  exact List.sum_map_count_dedup_eq_length population

/-- The duplicate count of `count_duplicates` equals `total - unique`. -/
theorem duplicate_count_eq (population : List (List Int)) :
    (count_duplicates population).duplicate_count =
      population.length - population.dedup.length := by
  simp only [count_duplicates]
  rw [sum_pred_filter_eq _ (counterValues_one_le population), counterValues_sum]
  simp [counterValues]

/-- `tools.selBest(p, 1)[0]` returns a member of `p` of minimal
fitness. -/
theorem selBestOne_spec (p : List Individual) (hp : p ≠ []) :
    ∃ b, selBestOne p = some b ∧ b ∈ p ∧ ∀ x ∈ p, b.fitness ≤ x.fitness := by
  have hne : List.insertionSort fitLE p ≠ [] := by
    intro h
    apply hp
    have hl := congrArg List.length h
    rw [List.length_insertionSort] at hl
    exact List.eq_nil_of_length_eq_zero hl
  obtain ⟨b, t, heq⟩ := List.exists_cons_of_ne_nil hne
  refine ⟨b, ?_, ?_, ?_⟩
  · rw [selBestOne, selBest, heq]
    rfl
  · have hb : b ∈ List.insertionSort fitLE p := by
      rw [heq]
      exact List.mem_cons_self b t
    exact (List.perm_insertionSort fitLE p).subset hb
  · intro x hx
    have hxs : x ∈ List.insertionSort fitLE p :=
      (List.perm_insertionSort fitLE p).symm.subset hx
    have hsorted := List.sorted_insertionSort fitLE p
    rw [heq] at hsorted hxs
    rcases List.mem_cons.mp hxs with rfl | hxt
    · exact le_refl _
    · exact (List.sorted_cons.mp hsorted).1 x hxt

/-- The fold inside `minByFitness`, started from a concrete candidate,
produces a minimum of the candidate and the list. -/
theorem minByFold_spec (l : List Individual) :
    ∀ b : Individual,
      ∃ m, l.foldl (fun acc x =>
          match acc with
          | none => some x
          | some c => if x.fitness < c.fitness then some x else some c) (some b) = some m ∧
        (m = b ∨ m ∈ l) ∧ m.fitness ≤ b.fitness ∧ ∀ x ∈ l, m.fitness ≤ x.fitness := by
  induction l with
  | nil =>
    intro b
    exact ⟨b, rfl, Or.inl rfl, le_refl _, by simp⟩
  | cons x xs ih =>
    intro b
    rw [List.foldl_cons]
    by_cases hx : x.fitness < b.fitness
    · have hstep : (match some b with
          | none => some x
          | some c => if x.fitness < c.fitness then some x else some c) = some x := by
        simp [hx]
      rw [hstep]
      obtain ⟨m, hm, hmem, hle, hall⟩ := ih x
      refine ⟨m, hm, ?_, le_trans hle (le_of_lt hx), ?_⟩
      · rcases hmem with rfl | h
        · exact Or.inr (List.mem_cons_self _ _)
        · exact Or.inr (List.mem_cons_of_mem _ h)
      · intro y hy
        rcases List.mem_cons.mp hy with rfl | hyt
        · exact hle
        · exact hall y hyt
    · have hstep : (match some b with
          | none => some x
          | some c => if x.fitness < c.fitness then some x else some c) = some b := by
        simp [hx]
      rw [hstep]
      obtain ⟨m, hm, hmem, hle, hall⟩ := ih b
      refine ⟨m, hm, ?_, hle, ?_⟩
      · rcases hmem with rfl | h
        · exact Or.inl rfl
        · exact Or.inr (List.mem_cons_of_mem _ h)
      · intro y hy
        rcases List.mem_cons.mp hy with rfl | hyt
        · exact le_trans hle (not_lt.mp hx)
        · exact hall y hyt

/-- Python `min(bests, key=fitness.values)` on a nonempty list returns a
member of minimal fitness. -/
theorem minByFitness_spec (l : List Individual) (hl : l ≠ []) :
    ∃ m, minByFitness l = some m ∧ m ∈ l ∧ ∀ x ∈ l, m.fitness ≤ x.fitness := by
  obtain ⟨c, t, rfl⟩ := List.exists_cons_of_ne_nil hl
  have hdef : minByFitness (c :: t) = t.foldl (fun acc x =>
      match acc with
      | none => some x
      | some d => if x.fitness < d.fitness then some x else some d) (some c) := rfl
  rw [hdef]
  obtain ⟨m, hm, hmem, hle, hall⟩ := minByFold_spec t c
  refine ⟨m, hm, ?_, ?_⟩
  · rcases hmem with rfl | h
    · exact List.mem_cons_self _ _
    · exact List.mem_cons_of_mem _ h
  · intro x hx
    rcases List.mem_cons.mp hx with rfl | hxt
    · exact hle
    · exact hall x hxt

/-- Total number of individuals across a list of islands. -/
def sumSizes (pops : List (List Individual)) : Nat := (pops.map List.length).sum

theorem sum_map_const (l : List Nat) (c : Nat) : (l.map (fun _ => c)).sum = l.length * c := by
  induction l with
  | nil => simp
  | cons x xs ih =>
    simp only [List.map_cons, List.sum_cons, List.length_cons, ih]
    ring

theorem sumSizes_eq_rangeSum : ∀ ps : List (List Individual),
    sumSizes ps = ((List.range ps.length).map (fun j => (ps.getD j []).length)).sum := by
  intro ps
  induction ps with
  | nil => rfl
  | cons x xs ih =>
    rw [List.length_cons, List.range_succ_eq_map, List.map_cons, List.map_map, List.sum_cons]
    have hhead : sumSizes (x :: xs) = x.length + sumSizes xs := by
      simp [sumSizes]
    rw [hhead, ih]
    have h0 : ((x :: xs).getD 0 []) = x := rfl
    rw [h0]
    have hmap : (List.map ((fun j => ((x :: xs).getD j []).length) ∘ Nat.succ)
          (List.range xs.length)) =
        List.map (fun j => (xs.getD j []).length) (List.range xs.length) := by
      apply List.map_congr_left
      intro k _
      simp only [Function.comp_apply, List.getD_cons_succ]
    rw [hmap]

/-- Two island lists of the same shape with pointwise-equal island sizes
have the same total size. -/
theorem sumSizes_congr (ps qs : List (List Individual))
    (hlen : qs.length = ps.length)
    (h : ∀ j, j < ps.length → (qs.getD j []).length = (ps.getD j []).length) :
    sumSizes qs = sumSizes ps := by
  rw [sumSizes_eq_rangeSum, sumSizes_eq_rangeSum, hlen]
  refine congrArg List.sum (List.map_congr_left ?_)
  intro j hj
  exact h j (List.mem_range.mp hj)

theorem mapIdx_getD (f : Nat → List Individual → List Individual)
    (ps : List (List Individual)) (j : Nat) (hj : j < ps.length) :
    (ps.mapIdx f).getD j [] = f j (ps.getD j []) := by
  rw [List.getD_eq_getElem?_getD, List.getD_eq_getElem?_getD, List.getElem?_mapIdx,
    List.getElem?_eq_getElem hj]
  rfl

/-- `range(start, stop, step)` has `⌈(stop - start) / step⌉` elements. -/
theorem rangeStep_length (start stop step : Nat) (hs : 0 < step) :
    (rangeStep start stop step).length = (stop - start + step - 1) / step := by
  rw [rangeStep]
  by_cases h : start < stop
  · rw [dif_pos ⟨h, hs⟩]
    simp only [List.length_cons]
    rw [rangeStep_length (start + step) stop step hs]
    by_cases hb : stop - start ≤ step
    · have h1 : stop - (start + step) = 0 := by omega
      rw [h1]
      have h2 : (0 + step - 1) / step = 0 := Nat.div_eq_of_lt (by omega)
      have h3 : (stop - start + step - 1) / step = 1 := by
        rw [show stop - start + step - 1 = (stop - start - 1) + step by omega,
          Nat.add_div_right _ hs, Nat.div_eq_of_lt (by omega)]
      omega
    · have h1 : stop - (start + step) = stop - start - step := by omega
      rw [h1, show stop - start - step + step - 1 = (stop - start - step - 1) + step by omega,
        Nat.add_div_right _ hs,
        show stop - start + step - 1 = ((stop - start - step - 1) + step) + step by omega,
        Nat.add_div_right _ hs, Nat.add_div_right _ hs]
  · rw [dif_neg (by omega)]
    simp only [List.length_nil]
    rw [show stop - start = 0 by omega]
    exact (Nat.div_eq_of_lt (by omega)).symm
termination_by stop - start

/-- The number of individuals in `l` whose genome is `g`. -/
def countG (g : List Int) (l : List Individual) : Nat :=
  l.countP (fun x => decide (x.genome = g))

theorem countG_append (g : List Int) (l₁ l₂ : List Individual) :
    countG g (l₁ ++ l₂) = countG g l₁ + countG g l₂ :=
  List.countP_append _ _ _

theorem countG_cons (g : List Int) (x : Individual) (xs : List Individual) :
    countG g (x :: xs) = countG g xs + (if x.genome = g then 1 else 0) := by
  simp only [countG, List.countP_cons]
  by_cases hx : x.genome = g
  · simp [hx]
  · simp [hx]

/-- Removing a present genome shortens the list by exactly one. -/
theorem removeFirstGenome_length (v : Individual) (l : List Individual)
    (h : 0 < countG v.genome l) :
    (removeFirstGenome l v).length + 1 = l.length := by
  induction l with
  | nil => simp [countG] at h
  | cons x xs ih =>
    rw [removeFirstGenome]
    by_cases hx : x.genome = v.genome
    · rw [if_pos hx]
      simp
    · rw [if_neg hx]
      have h' : 0 < countG v.genome xs := by
        rw [countG_cons, if_neg hx] at h
        omega
      have := ih h'
      simp only [List.length_cons]
      omega

/-- Removal decreases the count of each genome by at most one (and only
of the removed genome). -/
theorem countG_removeFirstGenome_ge (v : Individual) (g : List Int) (l : List Individual) :
    countG g l - (if v.genome = g then 1 else 0) ≤ countG g (removeFirstGenome l v) := by
  induction l with
  | nil => simp [removeFirstGenome, countG]
  | cons x xs ih =>
    rw [removeFirstGenome]
    by_cases hx : x.genome = v.genome
    · rw [if_pos hx, countG_cons]
      by_cases hg : v.genome = g
      · rw [if_pos (hx.trans hg), if_pos hg]
        omega
      · rw [if_neg (by rw [hx]; exact hg), if_neg hg]
        omega
    · rw [if_neg hx, countG_cons, countG_cons]
      by_cases hxg : x.genome = g
      · rw [if_pos hxg]
        split_ifs at ih ⊢ <;> omega
      · rw [if_neg hxg]
        split_ifs at ih ⊢ <;> omega

theorem applyMigration_cons (tgt : List Individual) (pr : Individual × Individual)
    (rest : List (Individual × Individual)) :
    applyMigration tgt (pr :: rest) =
      applyMigration (removeFirstGenome tgt pr.2 ++ [pr.1]) rest := rfl

/-- The inner migration loop conserves the target's size whenever the
immigrants it removes are (genome-wise) no more numerous than the
target's own members — which `selWorst` guarantees. -/
theorem applyMigration_length (pairs : List (Individual × Individual)) :
    ∀ tgt : List Individual,
      (∀ g : List Int, countG g (pairs.map Prod.snd) ≤ countG g tgt) →
      (applyMigration tgt pairs).length = tgt.length := by
  induction pairs with
  | nil =>
    intro tgt _
    rfl
  | cons pr rest ih =>
    intro tgt h
    rw [applyMigration_cons]
    have hp2 : 0 < countG pr.2.genome tgt := by
      have h1 := h pr.2.genome
      rw [List.map_cons, countG_cons, if_pos rfl] at h1
      omega
    have hrm := removeFirstGenome_length pr.2 tgt hp2
    have hlen' : (removeFirstGenome tgt pr.2 ++ [pr.1]).length = tgt.length := by
      simp only [List.length_append, List.length_singleton]
      omega
    have hcond : ∀ g : List Int,
        countG g (rest.map Prod.snd) ≤ countG g (removeFirstGenome tgt pr.2 ++ [pr.1]) := by
      intro g
      have h1 := h g
      have h2 := countG_removeFirstGenome_ge pr.2 g tgt
      rw [countG_append]
      rw [List.map_cons, countG_cons] at h1
      by_cases hg : pr.2.genome = g
      · rw [if_pos hg] at h1
        rw [if_pos hg] at h2
        omega
      · rw [if_neg hg] at h1
        rw [if_neg hg] at h2
        omega
    rw [ih _ hcond, hlen']

/-- The second components of a zip form a sublist (a prefix) of the
second list. -/
theorem map_snd_zip_sublist :
    ∀ (a b : List Individual), List.Sublist ((a.zip b).map Prod.snd) b := by
  intro a
  induction a with
  | nil =>
    intro b
    simp
  | cons x xs ih =>
    intro b
    cases b with
    | nil => simp
    | cons y ys =>
      simp only [List.zip_cons_cons, List.map_cons]
      exact (ih ys).cons₂ y

/-- `selWorst` never selects more copies of a genome than the population
holds. -/
theorem countG_selWorst_le (tgt : List Individual) (k : Nat) (g : List Int) :
    countG g (selWorst tgt k) ≤ countG g tgt := by
  unfold selWorst countG
  calc List.countP (fun x => decide (x.genome = g)) ((List.insertionSort fitGE tgt).take k)
      ≤ List.countP (fun x => decide (x.genome = g)) (List.insertionSort fitGE tgt) :=
        (List.take_sublist _ _).countP_le _
    _ = List.countP (fun x => decide (x.genome = g)) tgt :=
        (List.perm_insertionSort fitGE tgt).countP_eq _

/-- One migration iteration never changes the number of islands. -/
theorem migrateStep_numIslands (k : Nat) (ps : List (List Individual)) (i : Nat) :
    (migrateStep k ps i).length = ps.length := by
  simp [migrateStep]

theorem getD_set_self (l : List (List Individual)) (i : Nat) (v : List Individual)
    (h : i < l.length) : (l.set i v).getD i [] = v := by
  simp [List.getD_eq_getElem?_getD, List.getElem?_set_self h]

theorem getD_set_ne (l : List (List Individual)) (i j : Nat) (v : List Individual)
    (h : i ≠ j) : (l.set i v).getD j [] = l.getD j [] := by
  simp [List.getD_eq_getElem?_getD, List.getElem?_set_ne h]

/-- One migration iteration conserves every island's size. -/
theorem migrateStep_length (k : Nat) (ps : List (List Individual)) (i j : Nat) :
    ((migrateStep k ps i).getD j []).length = (ps.getD j []).length := by
  have happly : ∀ tgt src : List Individual,
      (applyMigration tgt ((selBest src k).zip (selWorst tgt k))).length = tgt.length := by
    intro tgt src
    apply applyMigration_length
    intro g
    calc countG g (((selBest src k).zip (selWorst tgt k)).map Prod.snd)
        ≤ countG g (selWorst tgt k) := (map_snd_zip_sublist _ _).countP_le _
      _ ≤ countG g tgt := countG_selWorst_le tgt k g
  simp only [migrateStep]
  by_cases hj : (i + 1) % ps.length = j
  · by_cases hlt : (i + 1) % ps.length < ps.length
    · subst hj
      rw [getD_set_self _ _ _ hlt]
      exact happly _ _
    · rw [List.set_eq_of_length_le (by omega)]
  · rw [getD_set_ne _ _ _ _ hj]

/-- The whole migration loop conserves the number of islands. -/
theorem foldl_migrateStep_numIslands (k : Nat) (idxs : List Nat) :
    ∀ ps : List (List Individual), (idxs.foldl (migrateStep k) ps).length = ps.length := by
  induction idxs with
  | nil =>
    intro ps
    rfl
  | cons i rest ih =>
    intro ps
    rw [List.foldl_cons, ih, migrateStep_numIslands]

/-- The whole migration loop conserves every island's size. -/
theorem foldl_migrateStep_length (k : Nat) (idxs : List Nat) :
    ∀ (ps : List (List Individual)) (j : Nat),
      ((idxs.foldl (migrateStep k) ps).getD j []).length = (ps.getD j []).length := by
  induction idxs with
  | nil =>
    intro ps j
    rfl
  | cons i rest ih =>
    intro ps j
    rw [List.foldl_cons, ih, migrateStep_length]

/-- `migrate_island` conserves every island's size, unconditionally. -/
theorem migrate_island_length (populations : List (List Individual)) (rate : ℚ) (j : Nat) :
    ((migrate_island populations rate).getD j []).length = (populations.getD j []).length := by
  rw [migrate_island, foldl_migrateStep_length]

/-- `migrate_island` conserves the number of islands. -/
theorem migrate_island_numIslands (populations : List (List Individual)) (rate : ℚ) :
    (migrate_island populations rate).length = populations.length := by
  rw [migrate_island, foldl_migrateStep_numIslands]

theorem set_getD_self : ∀ (l : List (List Individual)) (i : Nat), l.set i (l.getD i []) = l := by
  intro l
  induction l with
  | nil =>
    intro i
    rfl
  | cons x xs ih =>
    intro i
    cases i with
    | zero => rfl
    | succ n =>
      show x :: xs.set n ((x :: xs).getD (n + 1) []) = x :: xs
      have hg : (x :: xs).getD (n + 1) [] = xs.getD n [] := by
        simp [List.getD_eq_getElem?_getD]
      rw [hg, ih]

/-- With `num_migrate = 0` one migration iteration is the identity. -/
theorem migrateStep_zero (ps : List (List Individual)) (i : Nat) :
    migrateStep 0 ps i = ps := by
  simp only [migrateStep, selBest, selWorst, List.take_zero, List.zip_nil_left]
  exact set_getD_self ps _

/-- With `num_migrate = 0` the whole migration round is the identity. -/
theorem migrate_island_zero (populations : List (List Individual)) (rate : ℚ)
    (h : num_migrate rate populations = 0) :
    migrate_island populations rate = populations := by
  rw [migrate_island, h]
  generalize List.range populations.length = idxs
  induction idxs with
  | nil => rfl
  | cons i rest ih =>
    rw [List.foldl_cons, migrateStep_zero]
    exact ih

/-- The per-sample contribution of the genes `gs` placed at positions
`i, i+1, …` (genes assumed nonnegative): the mathematical sum the
accumulation loop of `fieldError` computes. -/
def specSum (t : FieldTable) : Nat → List Int → Nat → ℚ
  | _, [], _ => 0
  | i, v :: rest, s => t.entry s i v.toNat + specSum t (i + 1) rest s

/-- One step of the accumulation loop, by definition. -/
theorem fieldSumsGo_cons (t : FieldTable) (i : Nat) (v : Int) (rest : List Int) (acc : Nat → ℚ) :
    fieldSumsGo t i (v :: rest) acc =
      if i < t.posCount then
        match npIndex t.cfgCount v with
        | some j => fieldSumsGo t (i + 1) rest (fun s => acc s + t.entry s i j)
        | none => none
      else none := rfl

/-- On a genome of valid nonnegative genes at valid positions, the
accumulation loop succeeds and adds `specSum` pointwise to the
accumulator. -/
theorem fieldSumsGo_valid (t : FieldTable) (gs : List Int) :
    ∀ (i : Nat) (acc : Nat → ℚ),
      (∀ k, k < gs.length →
        i + k < t.posCount ∧ 0 ≤ gs.getD k 0 ∧ gs.getD k 0 < (t.cfgCount : Int)) →
      fieldSumsGo t i gs acc = some (fun s => acc s + specSum t i gs s) := by
  induction gs with
  | nil =>
    intro i acc _
    simp [fieldSumsGo, specSum]
  | cons v rest ih =>
    intro i acc h
    have h0 := h 0 (by simp)
    simp only [List.getD_cons_zero, Nat.add_zero] at h0
    have hidx : npIndex t.cfgCount v = some v.toNat := by
      rw [npIndex, if_pos ⟨h0.2.1, h0.2.2⟩]
    have hrest : ∀ k, k < rest.length →
        (i + 1) + k < t.posCount ∧ 0 ≤ rest.getD k 0 ∧ rest.getD k 0 < (t.cfgCount : Int) := by
      intro k hk
      have h2 := h (k + 1) (by simp only [List.length_cons]; omega)
      rw [List.getD_cons_succ] at h2
      exact ⟨by omega, h2.2.1, h2.2.2⟩
    rw [fieldSumsGo_cons, if_pos h0.1]
    simp only [hidx]
    rw [ih (i + 1) _ hrest]
    congr 1
    funext s
    rw [specSum]
    ring

/-- `specSum` written as a sum over the position range. -/
theorem specSum_eq_rangeSum (t : FieldTable) (gs : List Int) :
    ∀ (i s : Nat),
      specSum t i gs s =
        ((List.range gs.length).map (fun k => t.entry s (i + k) ((gs.getD k 0).toNat))).sum := by
  induction gs with
  | nil =>
    intro i s
    simp [specSum]
  | cons v rest ih =>
    intro i s
    rw [specSum, List.length_cons, List.range_succ_eq_map, List.map_cons, List.sum_cons,
      List.map_map]
    simp only [Nat.add_zero, List.getD_cons_zero]
    congr 1
    rw [ih (i + 1) s]
    refine congrArg List.sum (List.map_congr_left ?_)
    intro k _
    simp only [Function.comp_apply, List.getD_cons_succ]
    rw [show i + 1 + k = i + (k + 1) by omega]

/-- The accumulation loop fails exactly when some processed position is
past the table's second dimension or its gene is rejected by numpy
indexing on the third. -/
theorem fieldSumsGo_none_iff (t : FieldTable) (gs : List Int) :
    ∀ (i : Nat) (acc : Nat → ℚ),
      (fieldSumsGo t i gs acc = none ↔
        ∃ k, k < gs.length ∧
          (t.posCount ≤ i + k ∨ npIndex t.cfgCount (gs.getD k 0) = none)) := by
  induction gs with
  | nil =>
    intro i acc
    simp [fieldSumsGo]
  | cons v rest ih =>
    intro i acc
    by_cases hp : i < t.posCount
    · cases hidx : npIndex t.cfgCount v with
      | none =>
        rw [fieldSumsGo_cons, if_pos hp]
        simp only [hidx]
        constructor
        · intro _
          exact ⟨0, by simp, Or.inr (by simpa using hidx)⟩
        · intro _
          trivial
      | some j =>
        rw [fieldSumsGo_cons, if_pos hp]
        simp only [hidx]
        rw [ih (i + 1) _]
        constructor
        · rintro ⟨k, hk, hbad⟩
          refine ⟨k + 1, by simpa using Nat.succ_lt_succ hk, ?_⟩
          rcases hbad with hb | hb
          · exact Or.inl (by omega)
          · exact Or.inr (by simpa using hb)
        · rintro ⟨k, hk, hbad⟩
          cases k with
          | zero =>
            exfalso
            rcases hbad with hb | hb
            · omega
            · simp only [List.getD_cons_zero] at hb
              rw [hidx] at hb
              exact Option.noConfusion hb
          | succ k =>
            refine ⟨k, by simpa using Nat.lt_of_succ_lt_succ hk, ?_⟩
            rcases hbad with hb | hb
            · exact Or.inl (by omega)
            · exact Or.inr (by simpa using hb)
    · rw [fieldSumsGo_cons, if_neg hp]
      constructor
      · intro _
        exact ⟨0, by simp, Or.inl (by omega)⟩
      · intro _
        rfl

/-- `npIndex` rejects exactly the indices outside `[-n, n)`. -/
theorem npIndex_eq_none_iff (n : Nat) (v : Int) :
    npIndex n v = none ↔ v < -(n : Int) ∨ (n : Int) ≤ v := by
  rw [npIndex]
  split_ifs with h1 h2
  · simp only [iff_false_intro (Option.some_ne_none _), false_iff]
    omega
  · simp only [iff_false_intro (Option.some_ne_none _), false_iff]
    omega
  · simp only [true_iff]
    omega

/-! ## Claims -/

/-- The fitness formula exactly as the claim words it: the per-sample
field is the elementwise sum over gene positions of
`table[:, position_index, gene_value]`, and the result is
`homogeneity_weight * ((max - min) / mean) * 1e6 +
strength_weight * |mean - target_strength| * 1e6`.  This definition
follows the claim's words; `fieldError` follows the source. -/
def fieldErrorClaim (t : FieldTable) (genome : List Int) : ℚ :=
  let field := (List.range t.sampleCount).map
    (fun s => ((List.range genome.length).map
      (fun i => t.entry s i ((genome.getD i 0).toNat))).sum)
  config.homogeneity_weight * ((npMax field - npMin field) / npMean field) * 1000000
    + config.field_strength_weight * |npMean field - config.T_target| * 1000000

/-- C1: for every genome whose genes are valid indices into the Field
Lookup Table (and whose length matches the table's second dimension),
the fitness evaluator returns exactly
`homogeneity_weight * ((max - min) / mean) * 1e6 +
strength_weight * |mean - target_strength| * 1e6` computed over the
per-sample field sums. -/
theorem C1_fieldError_matches_formula (t : FieldTable) (genome : List Int)
    (hlen : genome.length = t.posCount)
    (hvalid : ∀ v ∈ genome, 0 ≤ v ∧ v < (t.cfgCount : Int))
    (_hs : 0 < t.sampleCount) :
    fieldError t genome = some (fieldErrorClaim t genome) := by
  have hcond : ∀ k, k < genome.length →
      0 + k < t.posCount ∧ 0 ≤ genome.getD k 0 ∧ genome.getD k 0 < (t.cfgCount : Int) := by
    intro k hk
    have hmem : genome.getD k 0 ∈ genome := by
      rw [List.getD_eq_getElem _ _ hk]
      exact List.getElem_mem hk
    have hv := hvalid _ hmem
    exact ⟨by omega, hv.1, hv.2⟩
  have hgo := fieldSumsGo_valid t genome 0 (fun _ => 0) hcond
  have hvec : fieldVec t genome = some ((List.range t.sampleCount).map
      (fun s => ((List.range genome.length).map
        (fun i => t.entry s i ((genome.getD i 0).toNat))).sum)) := by
    rw [fieldVec, hgo, Option.map_some']
    congr 1
    apply List.map_congr_left
    intro s _
    show (0 : ℚ) + specSum t 0 genome s = _
    rw [zero_add, specSum_eq_rangeSum t genome 0 s]
    refine congrArg List.sum (List.map_congr_left ?_)
    intro k _
    rw [Nat.zero_add]
  rw [fieldError, hvec, Option.map_some']
  congr 1
  rw [fieldErrorClaim]
  ring

/-- A 10×2×3 Field Lookup Table filled with the constant `1/100`: the
end-to-end scenario of the spec.  For genome `[0, 1]` every field sample
is `2/100`, so the homogeneity error is 0 and the total error is
`0.2 * |0.02 - 0.08| * 1e6 = 12000`. -/
def knownTable : FieldTable :=
  { sampleCount := 10
    posCount := 2
    cfgCount := 3
    entry := fun _ _ _ => 1 / 100 }

/-- Witness for C1: the (10, 2, 3) table of known constants with genome
`[0, 1]` evaluates to the analytically pre-computed value 12000. -/
theorem C1_fieldError_matches_formula_witness :
    ([0, 1] : List Int).length = knownTable.posCount ∧
    (∀ v ∈ ([0, 1] : List Int), 0 ≤ v ∧ v < (knownTable.cfgCount : Int)) ∧
    0 < knownTable.sampleCount ∧
    fieldError knownTable [0, 1] = some (fieldErrorClaim knownTable [0, 1]) ∧
    fieldErrorClaim knownTable [0, 1] = 12000 := by
  have h := C1_fieldError_matches_formula knownTable [0, 1] (by decide) (by decide) (by decide)
  refine ⟨by decide, by decide, by decide, h, ?_⟩
  norm_num [fieldErrorClaim, npMax, npMin, npMean, knownTable, config.T_target,
    config.homogeneity_weight, config.field_strength_weight, List.range_succ]
  rw [abs_of_nonneg (by norm_num : (0 : ℚ) ≤ 3 / 50)]
  norm_num

/-- A 1×2×3 Field Lookup Table of ones. -/
def smallTable : FieldTable :=
  { sampleCount := 1
    posCount := 2
    cfgCount := 3
    entry := fun _ _ _ => 1 }

/-- C4 counterexample: on a table with `position_count = 2` and
`config_count = 3`, the evaluator silently accepts the genome `[0]`
(length 1 ≠ 2: the loop just runs over fewer positions) and the genome
`[0, -1]` (gene −1 outside `[0, 3)`: numpy wraps it to index 2) — both
were claimed to fail with a dimension error. -/
theorem C4_dimension_error_counterexample :
    ¬ ([0] : List Int).length = smallTable.posCount ∧
    (fieldError smallTable [0]).isSome = true ∧
    ((-1 : Int) ∈ ([0, -1] : List Int) ∧ ¬ (0 : Int) ≤ -1) ∧
    (fieldError smallTable [0, -1]).isSome = true := by
  refine ⟨by decide, by decide, by decide, by decide⟩

/-- C4, amended: the fitness evaluator fails iff the genome is longer
than `position_count`, or some gene lies outside
`[-config_count, config_count)` (numpy wraps negative in-range indices
instead of rejecting them).  In particular a genome shorter than
`position_count`, or one containing a negative gene in
`[-config_count, 0)`, is silently evaluated rather than rejected. -/
theorem C4_failure_characterization (t : FieldTable) (genome : List Int) :
    fieldError t genome = none ↔
      ∃ i, i < genome.length ∧
        (t.posCount ≤ i ∨ genome.getD i 0 < -(t.cfgCount : Int)
          ∨ (t.cfgCount : Int) ≤ genome.getD i 0) := by
  rw [fieldError, Option.map_eq_none', fieldVec, Option.map_eq_none',
    fieldSumsGo_none_iff t genome 0 _]
  constructor
  · rintro ⟨k, hk, hbad⟩
    refine ⟨k, hk, ?_⟩
    rcases hbad with hb | hb
    · exact Or.inl (by omega)
    · exact Or.inr ((npIndex_eq_none_iff _ _).mp hb)
  · rintro ⟨k, hk, hbad⟩
    refine ⟨k, hk, ?_⟩
    rcases hbad with hb | hb
    · exact Or.inl (by omega)
    · exact Or.inr ((npIndex_eq_none_iff _ _).mpr hb)

/-- C7: for every non-empty population snapshot, the duplicate tracker
returns total count = population size, unique count = the number of
distinct gene sequences, duplicate count = total − unique, and duplicate
percentage = duplicate_count / total * 100; consequently
`unique_individuals + duplicate_count = total_population` and
`0 ≤ duplicate_percentage ≤ 100`. -/
theorem C7_duplicate_tracker_correct (population : List (List Int)) (h : population ≠ []) :
    (count_duplicates population).total_population = population.length ∧
    (count_duplicates population).unique_individuals = population.dedup.length ∧
    (count_duplicates population).duplicate_count =
      (count_duplicates population).total_population
        - (count_duplicates population).unique_individuals ∧
    (count_duplicates population).duplicate_percentage =
      ((count_duplicates population).duplicate_count : ℚ)
        / ((count_duplicates population).total_population : ℚ) * 100 ∧
    (count_duplicates population).unique_individuals
        + (count_duplicates population).duplicate_count =
      (count_duplicates population).total_population ∧
    0 ≤ (count_duplicates population).duplicate_percentage ∧
    (count_duplicates population).duplicate_percentage ≤ 100 := by
  have htot : (count_duplicates population).total_population = population.length := rfl
  have huniq : (count_duplicates population).unique_individuals = population.dedup.length := by
    simp [count_duplicates, counterValues]
  have hdup := duplicate_count_eq population
  have hle : population.dedup.length ≤ population.length :=
    (List.dedup_sublist population).length_le
  have hpos : 0 < population.length := List.length_pos.mpr h
  have hone : 1 ≤ population.dedup.length := by
    have : population.dedup ≠ [] := by
      intro hd
      exact h ((List.dedup_eq_nil population).mp hd)
    have := List.length_pos.mpr this
    omega
  have hpct : (count_duplicates population).duplicate_percentage =
      ((count_duplicates population).duplicate_count : ℚ)
        / ((count_duplicates population).total_population : ℚ) * 100 := rfl
  have htpos : (0 : ℚ) < ((count_duplicates population).total_population : ℚ) := by
    rw [htot]; exact_mod_cast hpos
  have hdleN : (count_duplicates population).duplicate_count ≤
      (count_duplicates population).total_population := by
    rw [hdup, htot]; omega
  have hdle : ((count_duplicates population).duplicate_count : ℚ) ≤
      ((count_duplicates population).total_population : ℚ) := by exact_mod_cast hdleN
  refine ⟨htot, huniq, ?_, hpct, ?_, ?_, ?_⟩
  · rw [hdup, htot, huniq]
  · rw [hdup, htot, huniq]
    omega
  · rw [hpct]
    have h1 : 0 ≤ ((count_duplicates population).duplicate_count : ℚ) := by positivity
    have h2 := le_of_lt htpos
    positivity
  · rw [hpct]
    have h1 : ((count_duplicates population).duplicate_count : ℚ)
        / ((count_duplicates population).total_population : ℚ) ≤ 1 :=
      (div_le_one htpos).mpr hdle
    calc ((count_duplicates population).duplicate_count : ℚ)
          / ((count_duplicates population).total_population : ℚ) * 100
        ≤ 1 * 100 := by
          exact mul_le_mul_of_nonneg_right h1 (by norm_num)
      _ = 100 := one_mul 100

/-- Witness for C7: a population of 10 identical genomes reports 1 unique
individual, 9 duplicates, and a duplicate percentage of 90. -/
theorem C7_duplicate_tracker_correct_witness :
    (count_duplicates (List.replicate 10 ([0, 1] : List Int))).unique_individuals = 1 ∧
    (count_duplicates (List.replicate 10 ([0, 1] : List Int))).duplicate_count = 9 ∧
    (count_duplicates (List.replicate 10 ([0, 1] : List Int))).duplicate_percentage = 90 ∧
    0 ≤ (count_duplicates (List.replicate 10 ([0, 1] : List Int))).duplicate_percentage ∧
    (count_duplicates (List.replicate 10 ([0, 1] : List Int))).duplicate_percentage ≤ 100 := by
  obtain ⟨ht, hu, hd, hp, hs, h0, h100⟩ :=
    C7_duplicate_tracker_correct (List.replicate 10 ([0, 1] : List Int)) (by decide)
  refine ⟨by decide, by decide, ?_, h0, h100⟩
  rw [hp, show (count_duplicates (List.replicate 10 ([0, 1] : List Int))).duplicate_count = 9
      from by decide,
    show (count_duplicates (List.replicate 10 ([0, 1] : List Int))).total_population = 10
      from by decide]
  norm_num

/-- C8 counterexample: with `total_generations = 10` and
`migration_interval = 3` the coordinator runs 4 rounds of 3 generations
each; the final round dispatches 3 generations, not the remaining 1, and
the islands evolve for 12 > 10 generations in all — refuting the claim
that the final round runs only the remaining generations. -/
theorem C8_final_round_counterexample :
    roundGenerations 10 3 = [3, 3, 3, 3] ∧
    (roundGenerations 10 3).getLast? = some 3 ∧
    ¬ (roundGenerations 10 3).getLast? = some 1 ∧
    (roundGenerations 10 3).sum = 12 ∧
    ¬ (roundGenerations 10 3).sum ≤ 10 := by
  have h : roundGenerations 10 3 = [3, 3, 3, 3] := by
    simp [roundGenerations, rangeStep]
  refine ⟨h, ?_, ?_, ?_, ?_⟩ <;> simp [h]

/-- C8, amended: for positive `total_generations` and
`migration_interval`, the coordinator executes exactly
`⌈total_generations / migration_interval⌉` rounds, and **every** round
(the final one included) dispatches `migration_interval` generations to
each island, so the islands evolve for
`⌈total_generations / migration_interval⌉ * migration_interval ≥
total_generations` generations in all. -/
theorem C8_rounds_amended (ngen interval : Nat) (h0 : 0 < ngen) (h1 : 0 < interval) :
    numRounds ngen interval = (ngen + interval - 1) / interval ∧
    (roundGenerations ngen interval).length = (ngen + interval - 1) / interval ∧
    (∀ g ∈ roundGenerations ngen interval, g = interval) ∧
    (roundGenerations ngen interval).sum = ((ngen + interval - 1) / interval) * interval ∧
    ngen ≤ (roundGenerations ngen interval).sum := by
  have hlen : (rangeStep 0 ngen interval).length = (ngen + interval - 1) / interval := by
    rw [rangeStep_length 0 ngen interval h1, Nat.sub_zero]
  have hmem : ∀ g ∈ roundGenerations ngen interval, g = interval := by
    intro g hg
    simp only [roundGenerations, List.mem_map] at hg
    obtain ⟨_, _, rfl⟩ := hg
    rfl
  have hconst : ∀ (l : List Nat), (l.map (fun _ => interval)).sum = l.length * interval := by
    intro l
    induction l with
    | nil => simp
    | cons a t ih => simp only [List.map_cons, List.sum_cons, List.length_cons, ih]; ring
  have hsum : (roundGenerations ngen interval).sum =
      ((ngen + interval - 1) / interval) * interval := by
    rw [roundGenerations, hconst, hlen]
  refine ⟨hlen, by simpa [roundGenerations] using hlen, hmem, hsum, ?_⟩
  rw [hsum]
  have hdm := Nat.div_add_mod (ngen + interval - 1) interval
  have hmlt : (ngen + interval - 1) % interval < interval := Nat.mod_lt _ h1
  rw [Nat.mul_comm] at hdm
  generalize hX : (ngen + interval - 1) / interval * interval = X at hdm ⊢
  omega

/-- Witness for C8 amended, at the configured values
`NGEN = 150`, `migration_interval = 15` (10 rounds of 15 generations). -/
theorem C8_rounds_amended_witness :
    numRounds 150 15 = (150 + 15 - 1) / 15 ∧
    (roundGenerations 150 15).length = (150 + 15 - 1) / 15 ∧
    (∀ g ∈ roundGenerations 150 15, g = 15) ∧
    (roundGenerations 150 15).sum = ((150 + 15 - 1) / 15) * 15 ∧
    150 ≤ (roundGenerations 150 15).sum :=
  C8_rounds_amended 150 15 (by decide) (by decide)

/-- C6: for every list of equally-sized non-empty island populations,
one migration round uses `num_migrate = ⌊migration_rate * island_size⌋`
(default rate 0.3), inserts each source's `num_migrate` best into the
next island of the ring while removing that target's `num_migrate`
worst, and every island has exactly its original size after the round;
when `num_migrate = 0` the round leaves every population unchanged. -/
theorem C6_migration_conserves_sizes (populations : List (List Individual))
    (size : Nat) (rate : ℚ)
    (hne : populations ≠ []) (hsz : ∀ p ∈ populations, p.length = size)
    (hpos : 0 < size) (_hr0 : 0 ≤ rate) (hr1 : rate ≤ 1) :
    num_migrate rate populations = (⌊rate * (size : ℚ)⌋).toNat ∧
    num_migrate rate populations ≤ size ∧
    (∀ j, j < populations.length →
      ((migrate_island populations rate).getD j []).length = size) ∧
    (num_migrate rate populations = 0 → migrate_island populations rate = populations) := by
  obtain ⟨p, rest, rfl⟩ := List.exists_cons_of_ne_nil hne
  have hk : num_migrate rate (p :: rest) = (⌊rate * (size : ℚ)⌋).toNat := by
    rw [num_migrate]
    have hp : p.length = size := hsz p (List.mem_cons_self p rest)
    rw [List.headD_cons, hp]
  refine ⟨hk, ?_, ?_, migrate_island_zero _ _⟩
  · rw [hk]
    have hmul : rate * (size : ℚ) ≤ (size : ℚ) := by
      have h0 : (0 : ℚ) ≤ (size : ℚ) := by positivity
      calc rate * (size : ℚ) ≤ 1 * (size : ℚ) := mul_le_mul_of_nonneg_right hr1 h0
        _ = (size : ℚ) := one_mul _
    have hfl : ⌊rate * (size : ℚ)⌋ ≤ (size : Int) := by
      calc ⌊rate * (size : ℚ)⌋ ≤ ⌊(size : ℚ)⌋ := Int.floor_le_floor hmul
        _ = (size : Int) := Int.floor_natCast size
    exact Int.toNat_le.mpr hfl
  · intro j hj
    rw [migrate_island_length]
    have hmem : (p :: rest).getD j [] ∈ p :: rest := by
      rw [List.getD_eq_getElem?_getD, List.getElem?_eq_getElem hj, Option.getD_some]
      exact List.getElem_mem hj
    exact hsz _ hmem

/-- Two islands of four individuals each, for the C6 witness
(`migration_rate = 0.5`, so `num_migrate = 2`). -/
def exPopsW : List (List Individual) :=
  [[⟨[1], 1⟩, ⟨[2], 2⟩, ⟨[3], 3⟩, ⟨[4], 4⟩],
   [⟨[5], 5⟩, ⟨[6], 6⟩, ⟨[7], 7⟩, ⟨[8], 8⟩]]

/-- Witness for C6 at 2 islands of size 4, rate 1/2. -/
theorem C6_migration_conserves_sizes_witness :
    num_migrate (1 / 2) exPopsW = (⌊(1 / 2 : ℚ) * (4 : ℚ)⌋).toNat ∧
    num_migrate (1 / 2) exPopsW ≤ 4 ∧
    (∀ j, j < exPopsW.length →
      ((migrate_island exPopsW (1 / 2)).getD j []).length = 4) ∧
    (num_migrate (1 / 2) exPopsW = 0 → migrate_island exPopsW (1 / 2) = exPopsW) :=
  C6_migration_conserves_sizes exPopsW 4 (1 / 2) (by decide) (by decide) (by decide)
    (by norm_num) (by norm_num)

/-- Three islands of four individuals; island 0 holds the globally best
individual `⟨[1], 1⟩`. -/
def exPops : List (List Individual) :=
  [[⟨[1], 1⟩, ⟨[2], 10⟩, ⟨[3], 11⟩, ⟨[4], 12⟩],
   [⟨[5], 5⟩, ⟨[6], 6⟩, ⟨[7], 7⟩, ⟨[8], 8⟩],
   [⟨[9], 20⟩, ⟨[10], 21⟩, ⟨[11], 22⟩, ⟨[12], 23⟩]]

/-- C3 counterexample: with the three islands of `exPops` and the
default rate, `num_migrate = 1`.  Island 1's best individual in the
pre-migration snapshot is `⟨[5], 5⟩`, so under snapshot semantics
island 2 would receive it.  Instead the code, having already inserted
island 0's best `⟨[1], 1⟩` into island 1, re-selects that immigrant as
island 1's best and passes it on: island 2 (and every island) ends up
holding `⟨[1], 1⟩`, and `⟨[5], 5⟩` is never migrated — migration is not
computed from the pre-migration snapshot and does depend on ring
order. -/
theorem C3_migration_snapshot_counterexample :
    selBest (exPops.getD 1 []) 1 = [⟨[5], 5⟩] ∧
    migrate_island exPops (3 / 10) =
      [[⟨[1], 1⟩, ⟨[2], 10⟩, ⟨[3], 11⟩, ⟨[1], 1⟩],
       [⟨[5], 5⟩, ⟨[6], 6⟩, ⟨[7], 7⟩, ⟨[1], 1⟩],
       [⟨[9], 20⟩, ⟨[10], 21⟩, ⟨[11], 22⟩, ⟨[1], 1⟩]] ∧
    (⟨[1], 1⟩ : Individual) ∈ (migrate_island exPops (3 / 10)).getD 2 [] ∧
    (⟨[5], 5⟩ : Individual) ∉ (migrate_island exPops (3 / 10)).getD 2 [] := by
  have hk : num_migrate (3 / 10) exPops = 1 := by
    norm_num [num_migrate, exPops]
  have hm : migrate_island exPops (3 / 10) =
      [[⟨[1], 1⟩, ⟨[2], 10⟩, ⟨[3], 11⟩, ⟨[1], 1⟩],
       [⟨[5], 5⟩, ⟨[6], 6⟩, ⟨[7], 7⟩, ⟨[1], 1⟩],
       [⟨[9], 20⟩, ⟨[10], 21⟩, ⟨[11], 22⟩, ⟨[1], 1⟩]] := by
    rw [migrate_island, hk]
    decide
  refine ⟨by decide, hm, ?_, ?_⟩
  · rw [hm]
    decide
  · rw [hm]
    decide

/-- C3, amended: migration is applied sequentially in ring order to the
partially-updated populations.  Step `i` reads both its source island
`i` and its target island `(i+1) mod n` from the **current** state —
island `i` may already contain immigrants inserted at step `i-1`, and
those immigrants can be re-selected among island `i`'s best — and step
`i` modifies only island `(i+1) mod n`. -/
theorem C3_migration_sequential (k : Nat) (ps : List (List Individual)) (i : Nat) :
    (∀ j, j ≠ (i + 1) % ps.length → (migrateStep k ps i).getD j [] = ps.getD j []) ∧
    ((i + 1) % ps.length < ps.length →
      (migrateStep k ps i).getD ((i + 1) % ps.length) [] =
        applyMigration (ps.getD ((i + 1) % ps.length) [])
          ((selBest (ps.getD i []) k).zip
            (selWorst (ps.getD ((i + 1) % ps.length) []) k))) := by
  constructor
  · intro j hj
    simp only [migrateStep]
    exact getD_set_ne _ _ _ _ (fun h => hj h.symm)
  · intro hlt
    simp only [migrateStep]
    exact getD_set_self _ _ _ hlt

/-- Witness for C3's amended sequential description at step 0 of
`exPops` with `num_migrate = 1`: island 0 is untouched and island 1
receives island 0's best in place of its own worst. -/
theorem C3_migration_sequential_witness :
    (0 : Nat) ≠ (0 + 1) % exPops.length ∧
    (migrateStep 1 exPops 0).getD 0 [] = exPops.getD 0 [] ∧
    (0 + 1) % exPops.length < exPops.length ∧
    (migrateStep 1 exPops 0).getD ((0 + 1) % exPops.length) [] =
      applyMigration (exPops.getD ((0 + 1) % exPops.length) [])
        ((selBest (exPops.getD 0 []) 1).zip
          (selWorst (exPops.getD ((0 + 1) % exPops.length) []) 1)) :=
  ⟨by decide, (C3_migration_sequential 1 exPops 0).1 0 (by decide), by decide,
    (C3_migration_sequential 1 exPops 0).2 (by decide)⟩

/-- C9: every gene lies in `[0, config_count)` after genome creation
(each gene drawn uniformly from `[0, config_count)` by
`generate_indices`), after two-point crossover of any two genomes
satisfying the bound, and after uniform-integer mutation with
`low = 0, up = config_count - 1` — the gene-range invariant is preserved
by every variation operator. -/
theorem C9_gene_range_invariant (n numPos : Nat) (hn : 0 < n)
    (stream : Nat → Nat) (l1 l2 : List Int)
    (h1 : ∀ g ∈ l1, 0 ≤ g ∧ g < (n : Int)) (h2 : ∀ g ∈ l2, 0 ≤ g ∧ g < (n : Int))
    (_hsize : 2 ≤ min l1.length l2.length) (s1 s2 : Nat)
    (ind : List Int) (hind : ∀ g ∈ ind, 0 ≤ g ∧ g < (n : Int))
    (flip : Nat → Bool) (vals : Nat → Nat) :
    (∀ g ∈ create_individual numPos n stream, 0 ≤ g ∧ g < (n : Int)) ∧
    (∀ g ∈ (cxTwoPoint l1 l2 s1 s2).1, 0 ≤ g ∧ g < (n : Int)) ∧
    (∀ g ∈ (cxTwoPoint l1 l2 s1 s2).2, 0 ≤ g ∧ g < (n : Int)) ∧
    (∀ g ∈ mutUniformInt 0 (n - 1) ind flip vals, 0 ≤ g ∧ g < (n : Int)) := by
  have hdraw : ∀ s : Nat, 0 ≤ (randint 0 (n - 1) s : Int) ∧ (randint 0 (n - 1) s : Int) < n := by
    intro s
    have hmod : s % (n - 1 - 0 + 1) < n := by
      have h' : n - 1 - 0 + 1 = n := by omega
      rw [h']
      exact Nat.mod_lt _ hn
    constructor
    · exact Int.ofNat_nonneg _
    · rw [randint]
      have h0 : 0 + s % (n - 1 - 0 + 1) < n := by omega
      exact_mod_cast h0
  have hcx : ∀ g : Int, (g ∈ l1 ∨ g ∈ l2) → 0 ≤ g ∧ g < (n : Int) := by
    rintro g (hg | hg)
    · exact h1 g hg
    · exact h2 g hg
  have hcxmem : ∀ (a b : Nat) (x y : List Int) (g : Int),
      g ∈ x.take a ++ (y.drop a).take (b - a) ++ x.drop b → g ∈ x ∨ g ∈ y := by
    intro a b x y g hg
    rcases List.mem_append.mp hg with hg' | hg'
    · rcases List.mem_append.mp hg' with hg'' | hg''
      · exact Or.inl (List.mem_of_mem_take hg'')
      · exact Or.inr (List.mem_of_mem_drop (List.mem_of_mem_take hg''))
    · exact Or.inl (List.mem_of_mem_drop hg')
  refine ⟨?_, ?_, ?_, ?_⟩
  · intro g hg
    simp only [create_individual, List.mem_map, List.mem_range] at hg
    obtain ⟨i, _, rfl⟩ := hg
    exact hdraw (stream i)
  · intro g hg
    exact hcx g (hcxmem _ _ _ _ _ hg)
  · intro g hg
    rcases hcxmem _ _ _ _ _ hg with hm | hm
    · exact h2 g hm
    · exact h1 g hm
  · intro g hg
    simp only [mutUniformInt] at hg
    obtain ⟨i, hi, hf⟩ := List.exists_of_mem_mapIdx hg
    by_cases hflip : flip i
    · rw [if_pos hflip] at hf
      rw [← hf]
      exact hdraw (vals i)
    · rw [if_neg hflip] at hf
      rw [← hf]
      exact hind _ (List.getElem_mem hi)

/-- Witness for C9 on concrete data: `config_count = 3`, genomes of
length 3, one mutated position. -/
theorem C9_gene_range_invariant_witness :
    (∀ g ∈ create_individual 2 3 (fun i => i + 4), 0 ≤ g ∧ g < (3 : Int)) ∧
    (∀ g ∈ (cxTwoPoint [0, 1, 2] [2, 0, 1] 5 7).1, 0 ≤ g ∧ g < (3 : Int)) ∧
    (∀ g ∈ (cxTwoPoint [0, 1, 2] [2, 0, 1] 5 7).2, 0 ≤ g ∧ g < (3 : Int)) ∧
    (∀ g ∈ mutUniformInt 0 2 [0, 1, 2] (fun i => decide (i = 1)) (fun _ => 9), 0 ≤ g ∧ g < (3 : Int)) := by
  have h := C9_gene_range_invariant 3 2 (by decide) (fun i => i + 4) [0, 1, 2] [2, 0, 1]
    (by decide) (by decide) (by decide) 5 7 [0, 1, 2] (by decide)
    (fun i => decide (i = 1)) (fun _ => 9)
  exact h

/-- One possible realization of a round of island evolution: `eaSimple`
performs full generational replacement without elitism (tournament
selection plus crossover and mutation), so a run in which the best
individual is not selected and the whole population converges elsewhere
is possible; this function is such a realization. -/
def exEvolve : Nat → Nat → List Individual → List Individual :=
  fun _ _ _ => [⟨[9], 5⟩, ⟨[9], 5⟩, ⟨[9], 5⟩]

/-- One island of three individuals, whose best has fitness 1. -/
def exPops2 : List (List Individual) := [[⟨[1], 1⟩, ⟨[2], 7⟩, ⟨[3], 8⟩]]

/-- The concrete run of the island model used by the C2 counterexample
and witness: one island, one round, evolution replaces the population. -/
theorem exIsland_run :
    (island_model exEvolve 1 1 exPops2).1 = [[⟨[9], 5⟩, ⟨[9], 5⟩, ⟨[9], 5⟩]] ∧
    (island_model exEvolve 1 1 exPops2).2 = some ⟨[9], 5⟩ := by
  have hr : numRounds 1 1 = 1 := by
    simp [numRounds, rangeStep]
  have hk : num_migrate (3 / 10) [[⟨[9], 5⟩, ⟨[9], 5⟩, ⟨[9], 5⟩]] = 0 := by
    norm_num [num_migrate]
  have hfin : islandRounds exEvolve exPops2 (numRounds 1 1) =
      [[⟨[9], 5⟩, ⟨[9], 5⟩, ⟨[9], 5⟩]] := by
    rw [hr]
    have hmap : (islandRounds exEvolve exPops2 0).mapIdx (fun i p => exEvolve 0 i p) =
        [[⟨[9], 5⟩, ⟨[9], 5⟩, ⟨[9], 5⟩]] := by decide
    show migrate_island ((islandRounds exEvolve exPops2 0).mapIdx (fun i p => exEvolve 0 i p))
        (3 / 10) = _
    rw [hmap]
    exact migrate_island_zero _ _ hk
  constructor
  · exact hfin
  · show minByFitness ((islandRounds exEvolve exPops2 (numRounds 1 1)).filterMap selBestOne) =
      some ⟨[9], 5⟩
    rw [hfin]
    decide

/-- C2 counterexample: in this run the initial population (observed at
generation 0) contains an individual of fitness 1, the evolution step —
a possible realization of `eaSimple`, which has no elitism — loses it,
and the Hall of Fame returned by `island_model` holds a genome of
fitness 5: the best of the final populations only, not the best ever
observed.  (The per-island `HallOfFame` maintained inside
`evolve_island` is discarded by `evolve_island_wrapper`.) -/
theorem C2_hof_counterexample :
    (island_model exEvolve 1 1 exPops2).2 = some ⟨[9], 5⟩ ∧
    (⟨[1], 1⟩ : Individual) ∈ exPops2.getD 0 [] ∧
    (Individual.mk [1] 1).fitness < (Individual.mk [9] 5).fitness := by
  refine ⟨exIsland_run.2, by decide, by norm_num⟩

/-- C2, amended: the Hall of Fame returned by `island_model` contains a
genome whose fitness equals the minimum fitness present in the **final**
island populations (after the last round) — the best of the per-island
bests — not necessarily the minimum ever observed across generations. -/
theorem C2_hof_is_best_of_final (evolve : Nat → Nat → List Individual → List Individual)
    (ngen interval : Nat) (pops : List (List Individual))
    (hne : (island_model evolve ngen interval pops).1 ≠ [])
    (hne2 : ∀ p ∈ (island_model evolve ngen interval pops).1, p ≠ []) :
    ∃ best, (island_model evolve ngen interval pops).2 = some best ∧
      (∃ p ∈ (island_model evolve ngen interval pops).1, best ∈ p) ∧
      (∀ p ∈ (island_model evolve ngen interval pops).1, ∀ ind ∈ p,
        best.fitness ≤ ind.fitness) := by
  have hdef : (island_model evolve ngen interval pops).2 =
      minByFitness (((island_model evolve ngen interval pops).1).filterMap selBestOne) := rfl
  have hbne : ((island_model evolve ngen interval pops).1).filterMap selBestOne ≠ [] := by
    obtain ⟨p, rest, heq⟩ := List.exists_cons_of_ne_nil hne
    obtain ⟨b, hb, _, _⟩ := selBestOne_spec p (by
      apply hne2
      rw [heq]
      exact List.mem_cons_self p rest)
    rw [heq, List.filterMap_cons, hb]
    exact List.cons_ne_nil _ _
  obtain ⟨m, hm, hmem, hmin⟩ := minByFitness_spec _ hbne
  obtain ⟨p, hp, hps⟩ := List.mem_filterMap.mp hmem
  obtain ⟨b, hb, hbmem, _⟩ := selBestOne_spec p (hne2 p hp)
  have hbm : b = m := by
    rw [hb] at hps
    exact Option.some.inj hps
  refine ⟨m, by rw [hdef, hm], ⟨p, hp, hbm ▸ hbmem⟩, ?_⟩
  intro q hq ind hind
  obtain ⟨c, hc, _, hcmin⟩ := selBestOne_spec q (hne2 q hq)
  have hcb : c ∈ ((island_model evolve ngen interval pops).1).filterMap selBestOne :=
    List.mem_filterMap.mpr ⟨q, hq, hc⟩
  exact le_trans (hmin c hcb) (hcmin ind hind)

/-- Witness for the amended C2 on the concrete one-island run. -/
theorem C2_hof_is_best_of_final_witness :
    ∃ best, (island_model exEvolve 1 1 exPops2).2 = some best ∧
      (∃ p ∈ (island_model exEvolve 1 1 exPops2).1, best ∈ p) ∧
      (∀ p ∈ (island_model exEvolve 1 1 exPops2).1, ∀ ind ∈ p,
        best.fitness ≤ ind.fitness) :=
  C2_hof_is_best_of_final exEvolve 1 1 exPops2
    (by rw [exIsland_run.1]; decide)
    (by rw [exIsland_run.1]; decide)

/-- `toolbox.population(n)` produces `n` fresh individuals; this model
instance produces `n` copies of a fixed one. -/
def exMkPop : Nat → Nat → List Individual := fun _ k => List.replicate k ⟨[0], 1⟩

/-- C5 counterexample: with `total_population_size = 5` and
`num_islands = 2`, the partition `popSim // num_islands` creates 2
islands of 2, so already at the first synchronization boundary the
island sizes sum to 4, not the configured 5. -/
theorem C5_total_size_counterexample :
    (∀ i k, (exMkPop i k).length = k) ∧
    sumSizes (islandRounds (fun _ _ p => p) (initialPartition exMkPop 5 2) 0) = 4 ∧
    ¬ sumSizes (islandRounds (fun _ _ p => p) (initialPartition exMkPop 5 2) 0) = 5 := by
  refine ⟨fun i k => List.length_replicate k _, by decide, by decide⟩

/-- C5, amended: for any size-preserving per-round evolution (`eaSimple`
conserves population size; the `mu`-based strategies do not) and any
population generator, the sum of the island sizes at every
synchronization boundary — after partitioning and after each round's
evolution and migration, hence also in the final populations — equals
`num_islands * (total_population_size / num_islands)`, which is less
than `total_population_size` whenever `num_islands` does not divide
it. -/
theorem C5_island_sizes_amended (evolve : Nat → Nat → List Individual → List Individual)
    (hev : ∀ r i p, (evolve r i p).length = p.length)
    (mkPop : Nat → Nat → List Individual) (hmk : ∀ i k, (mkPop i k).length = k)
    (popSim num_islands ngen interval : Nat) :
    (∀ r, sumSizes (islandRounds evolve (initialPartition mkPop popSim num_islands) r) =
      num_islands * (popSim / num_islands)) ∧
    sumSizes (island_model evolve ngen interval
        (initialPartition mkPop popSim num_islands)).1 =
      num_islands * (popSim / num_islands) := by
  have key : ∀ r,
      (islandRounds evolve (initialPartition mkPop popSim num_islands) r).length =
        num_islands ∧
      sumSizes (islandRounds evolve (initialPartition mkPop popSim num_islands) r) =
        num_islands * (popSim / num_islands) := by
    intro r
    induction r with
    | zero =>
      constructor
      · simp [islandRounds, initialPartition]
      · show sumSizes (initialPartition mkPop popSim num_islands) = _
        rw [initialPartition, sumSizes, List.map_map]
        have hc : (List.range num_islands).map
            (List.length ∘ fun k => mkPop k (popSim / num_islands)) =
            (List.range num_islands).map (fun _ => popSim / num_islands) := by
          apply List.map_congr_left
          intro k _
          exact hmk k _
        rw [hc, sum_map_const, List.length_range]
    | succ rr ih =>
      have hprev := ih
      have hmaplen : ((islandRounds evolve (initialPartition mkPop popSim num_islands) rr).mapIdx
          (fun i p => evolve rr i p)).length = num_islands := by
        rw [List.length_mapIdx]
        exact hprev.1
      constructor
      · show (migrate_island _ (3 / 10)).length = num_islands
        rw [migrate_island_numIslands]
        exact hmaplen
      · show sumSizes (migrate_island ((islandRounds evolve
            (initialPartition mkPop popSim num_islands) rr).mapIdx
            (fun i p => evolve rr i p)) (3 / 10)) = _
        have hs1 := sumSizes_congr
          ((islandRounds evolve (initialPartition mkPop popSim num_islands) rr).mapIdx
            (fun i p => evolve rr i p))
          (migrate_island ((islandRounds evolve (initialPartition mkPop popSim num_islands)
            rr).mapIdx (fun i p => evolve rr i p)) (3 / 10))
          (migrate_island_numIslands _ _) (fun j _ => migrate_island_length _ _ j)
        have hs2 := sumSizes_congr
          (islandRounds evolve (initialPartition mkPop popSim num_islands) rr)
          ((islandRounds evolve (initialPartition mkPop popSim num_islands) rr).mapIdx
            (fun i p => evolve rr i p))
          (List.length_mapIdx)
          (fun j hj => by
            rw [mapIdx_getD _ _ j hj]
            exact hev rr j _)
        rw [hs1, hs2]
        exact hprev.2
  exact ⟨fun r => (key r).2, (key (numRounds ngen interval)).2⟩

/-- Witness for the amended C5 at `popSim = 5`, `num_islands = 2`
(total tracked size `2 * 2 = 4`), identity evolution, one round. -/
theorem C5_island_sizes_amended_witness :
    (∀ r, sumSizes (islandRounds (fun _ _ p => p) (initialPartition exMkPop 5 2) r) =
      2 * (5 / 2)) ∧
    sumSizes (island_model (fun _ _ p => p) 1 1 (initialPartition exMkPop 5 2)).1 =
      2 * (5 / 2) :=
  C5_island_sizes_amended (fun _ _ p => p) (fun _ _ _ => rfl) exMkPop
    (fun _ k => List.length_replicate k _) 5 2 1 1

/-- A 2×1×1 Field Lookup Table whose single column is `[1, -1]`: the
summed field has mean exactly zero. -/
def zeroMeanTable : FieldTable :=
  { sampleCount := 2
    posCount := 1
    cfgCount := 1
    entry := fun s _ _ => if s = 0 then 1 else -1 }

/-- C10: the duplicate-percentage and homogeneity-error computations are
unguarded divisions.  On the empty population the percentage division's
denominator `total_population` is 0 (Python raises ZeroDivisionError
there), and on a table whose field sums to mean 0 the homogeneity
ratio's denominator is 0 while the evaluator still produces a value —
neither denominator is guarded, clamped, or defaulted. -/
theorem C10_unguarded_divisions :
    (count_duplicates ([] : List (List Int))).total_population = 0 ∧
    fieldMean zeroMeanTable [0] = some 0 ∧
    (fieldError zeroMeanTable [0]).isSome = true := by
  have hv : fieldVec zeroMeanTable [0] = some [1, -1] := by
    simp only [fieldVec, fieldSumsGo, npIndex, zeroMeanTable]
    norm_num [List.range_succ]
  refine ⟨rfl, ?_, ?_⟩
  · simp only [fieldMean, hv, Option.map_some']
    norm_num [npMean]
  · simp [fieldError, hv]

end HalbachGA
